import Mathlib

/-!
Verification of the MCTS tic-tac-toe engine (`main.py`).

The Python source is shallowly embedded: the board is a `List (List ℕ)` of
cell values (0 empty, 1 for X, 2 for O), a `State` pairs a board with the
turn to move, and the mutable `Node` tree (parent pointer, state, simulation
count, win score, optional children list) becomes a purely functional
inductive tree.  Parent pointers are represented implicitly: a node is
addressed by its path of child indices from the root, and the Python walk up
the parent chain becomes an update of every prefix of that path.  Python
floats for win scores are modelled by `ℚ` (the scores are 0, 1/2, 1), and
the UCB selection key, which mixes `sqrt`/`log` and `float('inf')`, is
modelled by `WithTop ℝ`.  `random.choice` is modelled by an injected stream
`g : ℕ → ℕ` consulted at an explicit counter and reduced modulo the list
length.
-/

namespace MctsTTT

/-- `class Turn(Enum): x = 1; o = 2` from the source. -/
inductive Turn where
  | x : Turn
  | o : Turn
deriving DecidableEq, Repr

/-- `Turn.value`: the integer stored in a cell for each player. -/
def Turn.value : Turn → ℕ
  | .x => 1
  | .o => 2

/-- `Turn.o if state.turn == Turn.x else Turn.x` — the turn flip in
`apply_action`. -/
def Turn.other : Turn → Turn
  | .x => .o
  | .o => .x

/-- `State`: a board (list of rows of cell values) plus the turn to move. -/
structure State where
  board : List (List ℕ)
  turn : Turn
deriving DecidableEq, Repr

/-- Reading a cell `board[x][y]`.  Out-of-range reads default to 0; every
board the program builds is 3×3, where the default is never consulted. -/
def cell (b : List (List ℕ)) (x y : ℕ) : ℕ :=
  (b.getD x []).getD y 0

/-- The nine coordinates `(x, y)` for `x in range(3) for y in range(3)`,
in row-major order. -/
def allCells : List (ℕ × ℕ) :=
  (List.range 3).flatMap (fun x => (List.range 3).map (fun y => (x, y)))

/-- `get_valid_actions(state)`: every cell equal to 0, in row-major order
(the Python list comprehension filters the row-major enumeration). -/
def get_valid_actions (s : State) : List (ℕ × ℕ) :=
  allCells.filter (fun a => cell s.board a.1 a.2 = 0)

/-- Replace element `i` of a list by `f` of itself (no-op out of range);
used for the row update `new_board[x][y] = ...` and for child updates. -/
def modifyIdx {α : Type} : List α → ℕ → (α → α) → List α
  | [], _, _ => []
  | a :: l, 0, f => f a :: l
  | a :: l, i + 1, f => a :: modifyIdx l i f

/-- `apply_action(action, state)`: copy the board, write the mover's value
at the target cell, flip the turn.  There is no occupancy check in the
source: whatever the target cell held, it is overwritten. -/
def apply_action (a : ℕ × ℕ) (s : State) : State :=
  { board := modifyIdx s.board a.1 (fun row => row.set a.2 s.turn.value)
    turn := s.turn.other }

/-- The 8 lines examined by `check_win_conditions`: the three rows (the
board list itself), the three columns (Python's `zip(*board)`, written out
for the 3×3 boards the program uses), and the two diagonals. -/
def lineList (s : State) : List (List ℕ) :=
  s.board ++
  (List.range 3).map (fun y => (List.range 3).map (fun x => cell s.board x y)) ++
  [(List.range 3).map (fun i => cell s.board i i),
   (List.range 3).map (fun i => cell s.board i (2 - i))]

/-- `check_win_conditions(state)`: returns `state.turn` when the list
`[state.turn.value] * 3` occurs among the 8 lines, else `None`.  Note the
source checks only for a line of the side *to move*. -/
def check_win_conditions (s : State) : Option Turn :=
  if [s.turn.value, s.turn.value, s.turn.value] ∈ lineList s then some s.turn
  else none

/-- The number of empty cells of a state (the length of
`get_valid_actions`), the variant of the rollout loop. -/
def countEmpty (s : State) : ℕ :=
  (get_valid_actions s).length

/-- Boards actually built by the program: 3 rows of 3 cells. -/
def WFBoard (b : List (List ℕ)) : Prop :=
  b.length = 3 ∧ ∀ r ∈ b, r.length = 3

instance (b : List (List ℕ)) : Decidable (WFBoard b) := by
  unfold WFBoard; infer_instance

/-! ### C1 / C10: behaviour of the win check -/

/-- The §8 scenario board `[[A,A,0],[0,B,0],[0,0,B]]` with A (= X = 1) to
move. -/
def scenarioState : State :=
  { board := [[1, 1, 0], [0, 2, 0], [0, 0, 2]], turn := Turn.x }

/-- C1: on the spec's concrete scenario, `(0,2)` is a legal move for A, and
applying it completes A's top row — yet `check_win_conditions` on the
resulting state returns `none`, not A: `apply_action` has flipped the turn
to B, and the win check looks only for a line of the side to move.  The
claim expects the winner A to be reported. -/
theorem winner_scenario_reports_none :
    (0, 2) ∈ get_valid_actions scenarioState ∧
    (apply_action (0, 2) scenarioState).board = [[1, 1, 1], [0, 2, 0], [0, 0, 2]] ∧
    check_win_conditions (apply_action (0, 2) scenarioState) = none := by
  decide

/-- C10: `check_win_conditions` only ever answers `none` or the side to
move of the state it is given; consequently on the state produced by
`apply_action` (whose turn is already flipped) the mover's own identity is
never reported as the winner. -/
theorem winner_only_side_to_move :
    ∀ s : State,
      (check_win_conditions s = none ∨ check_win_conditions s = some s.turn) ∧
      ∀ a : ℕ × ℕ, check_win_conditions (apply_action a s) ≠ some s.turn := by
  intro s
  constructor
  · unfold check_win_conditions
    by_cases h : [s.turn.value, s.turn.value, s.turn.value] ∈ lineList s
    · exact Or.inr (if_pos h)
    · exact Or.inl (if_neg h)
  · intro a hcontra
    have hturn : (apply_action a s).turn = s.turn.other := rfl
    unfold check_win_conditions at hcontra
    by_cases h : [(apply_action a s).turn.value, (apply_action a s).turn.value,
        (apply_action a s).turn.value] ∈ lineList (apply_action a s)
    · rw [if_pos h] at hcontra
      have : s.turn.other = s.turn := by
        have := Option.some.inj hcontra
        rw [hturn] at this
        exact this
      cases ht : s.turn <;> rw [ht] at this <;> exact absurd this (by decide)
    · rw [if_neg h] at hcontra
      exact Option.noConfusion hcontra

/-! ### C2: `apply_action` on an occupied cell -/

/-- A state whose cell (0,0) is already occupied by X, with O to move. -/
def occupiedState : State :=
  { board := [[1, 0, 0], [0, 0, 0], [0, 0, 0]], turn := Turn.o }

/-- C2 counterexample: `apply_action` applied to the occupied cell (0,0)
silently overwrites it (the cell's value changes from X's 1 to O's 2) and
returns a normal successor state; its type has no error outcome at all, so
no "distinguishable error" is produced as the claim requires. -/
theorem apply_overwrites_occupied_cell_cex :
    cell occupiedState.board 0 0 = 1 ∧
    apply_action (0, 0) occupiedState =
      { board := [[2, 0, 0], [0, 0, 0], [0, 0, 0]], turn := Turn.x } := by
  decide

/-- `modifyIdx` at an in-range index applies the function to that entry. -/
theorem modifyIdx_getD {α : Type} (l : List α) (x : ℕ) (f : α → α) (d : α)
    (hx : x < l.length) :
    (modifyIdx l x f).getD x d = f (l.getD x d) := by
  induction l generalizing x with
  | nil => exact absurd hx (by simp)
  | cons a l ih =>
    cases x with
    | zero => simp [modifyIdx]
    | succ x' =>
      simp only [modifyIdx, List.getD_cons_succ]
      exact ih x' (Nat.lt_of_succ_lt_succ hx)

/-- C2 amended: `apply_action` performs no occupancy validation.  For any
in-range target cell — occupied or not — it unconditionally writes the
mover's value there and flips the turn; rejecting occupied cells is left
entirely to callers. -/
theorem apply_action_unconditional_write :
    ∀ (s : State) (x y : ℕ),
      x < s.board.length → y < (s.board.getD x []).length →
      cell (apply_action (x, y) s).board x y = s.turn.value ∧
      (apply_action (x, y) s).turn = s.turn.other := by
  intro s x y hx hy
  refine ⟨?_, rfl⟩
  show (((modifyIdx s.board x (fun row => row.set y s.turn.value)).getD x []).getD y 0)
      = s.turn.value
  rw [modifyIdx_getD _ _ _ _ hx]
  have hy' : y < ((s.board.getD x []).set y s.turn.value).length := by
    rw [List.length_set]; exact hy
  rw [List.getD_eq_getElem _ _ hy', List.getElem_set_self]

/-- Witness for the amended C2 theorem at a concrete occupied cell. -/
theorem apply_action_unconditional_write_witness :
    (0 < occupiedState.board.length ∧ 0 < (occupiedState.board.getD 0 []).length) ∧
    (cell (apply_action (0, 0) occupiedState).board 0 0 = occupiedState.turn.value ∧
      (apply_action (0, 0) occupiedState).turn = occupiedState.turn.other) :=
  ⟨by decide, apply_action_unconditional_write occupiedState 0 0 (by decide) (by decide)⟩

/-! ### The search tree

The Python `Node` dataclass carries a mutable parent pointer, a state,
`simulations`, `wins` and an optional children list.  Here a node is a
purely functional tree; a node deep in the tree is addressed by the list of
child indices leading to it from the root, and the parent chain of a node
at path `p` is exactly the set of proper prefixes of `p` (plus the node
itself): walking `node = node.parent` up to the root visits the nodes at
the prefixes of `p`, longest first. -/

/-- `Node(parent, state, simulations, wins, children=None)`.  `wins` is a
rational (the Python float only ever accumulates 0, 0.5, 1 increments). -/
inductive Node : Type where
  | mk (state : State) (simulations : ℕ) (wins : ℚ)
       (children : Option (List Node)) : Node

/-- The node's game state. -/
def Node.state : Node → State
  | ⟨s, _, _, _⟩ => s

/-- The node's visit count. -/
def Node.simulations : Node → ℕ
  | ⟨_, k, _, _⟩ => k

/-- The node's accumulated win score. -/
def Node.wins : Node → ℚ
  | ⟨_, _, w, _⟩ => w

/-- The node's children field: `none` for never-expanded, `some []` for an
expanded terminal node. -/
def Node.children : Node → Option (List Node)
  | ⟨_, _, _, c⟩ => c

/-- `Node(parent=None, state=s, simulations=0, wins=0)` — a fresh root. -/
def freshNode (s : State) : Node :=
  ⟨s, 0, 0, none⟩

/-- The length of the children list, when present (ghost observation used
to record what the `children` field held when `expand` is invoked). -/
def childCount (n : Node) : Option ℕ :=
  n.children.map List.length

/-- `expand(node)`: one child per legal move, each with the resulting
state, zero statistics and no children; the `children` field is assigned
unconditionally, overwriting whatever it held. -/
def expand (n : Node) : Node :=
  match n with
  | ⟨s, k, w, _⟩ =>
    ⟨s, k, w, some ((get_valid_actions s).map (fun a => ⟨apply_action a s, 0, 0, none⟩))⟩

/-- Look up the node at a path of child indices. -/
def getNode? : List ℕ → Node → Option Node
  | [], n => some n
  | i :: p, n =>
    match n.children with
    | none => none
    | some cs =>
      match cs[i]? with
      | none => none
      | some c => getNode? p c

/-- Rewrite the node at a path of child indices (no-op on a missing path). -/
def updateAt : List ℕ → (Node → Node) → Node → Node
  | [], f, n => f n
  | i :: p, f, ⟨s, k, w, ch⟩ =>
    ⟨s, k, w, ch.map (fun cs => modifyIdx cs i (updateAt p f))⟩

/-- The backpropagation walk of `random_rollout` (lines 104–107): starting
at the rolled-out node (here: the node at path `p`) and following parent
references to the root, add 1 to `simulations` and the outcome `r` to
`wins`.  Functionally: bump every node along `p`, starting with the root. -/
def backprop (r : ℚ) : List ℕ → Node → Node
  | [], ⟨s, k, w, ch⟩ => ⟨s, k + 1, w + r, ch⟩
  | i :: p, ⟨s, k, w, ch⟩ =>
    ⟨s, k + 1, w + r, ch.map (fun cs => modifyIdx cs i (backprop r p))⟩

/-- `result = 1 if winner == initial_turn else 0 if winner else 0.5`,
the playout outcome relative to the side to move at the rolled-out node. -/
def rolloutScore (w : Option Turn) (initialTurn : Turn) : ℚ :=
  if w = some initialTurn then 1 else if w = none then 1/2 else 0

/-- `onChain q p` holds when the node at path `q` lies on the
backpropagation chain of the node at path `p`, i.e. `q` is a prefix of
`p` (the chain runs from the rolled-out node up through its ancestors to
the root, and those are exactly the prefixes of `p`). -/
def onChain : List ℕ → List ℕ → Bool
  | [], _ => true
  | _ :: _, [] => false
  | i :: q, j :: p => i == j && onChain q p

/-! ### C3: backpropagation updates exactly the chain to the root -/

/-- Entry `i` of `modifyIdx l i f`, as a `getElem?`. -/
theorem modifyIdx_getElem?_self {α : Type} (l : List α) (i : ℕ) (f : α → α) :
    (modifyIdx l i f)[i]? = l[i]?.map f := by
  induction l generalizing i with
  | nil => cases i <;> simp [modifyIdx]
  | cons a l ih =>
    cases i with
    | zero => simp [modifyIdx]
    | succ i' => simpa [modifyIdx] using ih i'

/-- Entries other than `i` of `modifyIdx l i f` are untouched. -/
theorem modifyIdx_getElem?_ne {α : Type} (l : List α) (i j : ℕ) (f : α → α)
    (h : j ≠ i) : (modifyIdx l i f)[j]? = l[j]? := by
  induction l generalizing i j with
  | nil => cases i <;> simp [modifyIdx]
  | cons a l ih =>
    cases i with
    | zero =>
      cases j with
      | zero => exact absurd rfl h
      | succ j' => simp [modifyIdx]
    | succ i' =>
      cases j with
      | zero => simp [modifyIdx]
      | succ j' =>
        simpa [modifyIdx] using ih i' j' (fun hc => h (by rw [hc]))

/-- C3: one call to `backprop` with outcome `r` along a valid path `p`
(the rolled-out node's address) adds exactly 1 simulation and exactly `r`
wins — the same `r`, with no sign or perspective flip — at every node on
the chain from the rolled-out node up to the root (the prefixes of `p`),
and leaves every node not on that chain completely unchanged; moreover the
outcome value `rolloutScore` is always one of 1, 1/2, 0, namely 1 when the
rollout winner is the side that was to move at the rolled-out node, 1/2 on
a draw (no winner), 0 otherwise. -/
theorem backprop_chain_update (r : ℚ) (p : List ℕ) (t : Node)
    (hp : (getNode? p t).isSome = true) :
    (∀ q : List ℕ, onChain q p = true →
        (getNode? q (backprop r p t)).map Node.simulations
          = (getNode? q t).map (fun n => n.simulations + 1) ∧
        (getNode? q (backprop r p t)).map Node.wins
          = (getNode? q t).map (fun n => n.wins + r)) ∧
    (∀ q : List ℕ, onChain q p = false →
        getNode? q (backprop r p t) = getNode? q t) ∧
    (∀ (w : Option Turn) (it : Turn),
        rolloutScore w it = if w = some it then 1 else if w = none then 1/2 else 0) := by
  refine ⟨?_, ?_, fun w it => rfl⟩
  · intro q hq
    induction p generalizing t q with
    | nil =>
      cases q with
      | nil =>
        cases t with
        | mk s k w ch => simp [backprop, getNode?, Node.simulations, Node.wins]
      | cons j q' => exact absurd hq (by simp [onChain])
    | cons i p' ih =>
      cases t with
      | mk s k w ch =>
        cases q with
        | nil => simp [backprop, getNode?, Node.simulations, Node.wins]
        | cons j q' =>
          have hji : j = i ∧ onChain q' p' = true := by
            have := hq
            simp only [onChain, Bool.and_eq_true, beq_iff_eq] at this
            exact this
          obtain ⟨rfl, hq'⟩ := hji
          cases ch with
          | none =>
            exact absurd hp (by simp [getNode?, Node.children])
          | some cs =>
            have hget : ∃ c, cs[j]? = some c := by
              cases hcs : cs[j]? with
              | none => exact absurd hp (by simp [getNode?, Node.children, hcs])
              | some c => exact ⟨c, rfl⟩
            obtain ⟨c, hc⟩ := hget
            have hpc : (getNode? p' c).isSome = true := by
              simpa [getNode?, Node.children, hc] using hp
            have := ih c hpc q' hq'
            simp only [backprop, getNode?, Node.children, Option.map_some,
              modifyIdx_getElem?_self, hc, Option.map] at this ⊢
            exact this
  · intro q hq
    induction p generalizing t q with
    | nil =>
      cases q with
      | nil => exact absurd hq (by simp [onChain])
      | cons j q' =>
        cases t with
        | mk s k w ch => simp [backprop, getNode?, Node.children]
    | cons i p' ih =>
      cases t with
      | mk s k w ch =>
        cases q with
        | nil => exact absurd hq (by simp [onChain])
        | cons j q' =>
          cases ch with
          | none => simp [backprop, getNode?, Node.children]
          | some cs =>
            by_cases hji : j = i
            · subst hji
              have hq' : onChain q' p' = false := by
                have := hq
                simp only [onChain, Bool.and_eq_false_iff, beq_iff_eq] at this
                rcases this with h | h
                · simp at h
                · exact h
              cases hc : cs[j]? with
              | none =>
                exact absurd hp (by simp [getNode?, Node.children, hc])
              | some c =>
                have hpc : (getNode? p' c).isSome = true := by
                  simpa [getNode?, Node.children, hc] using hp
                have := ih c hpc q' hq'
                simp only [backprop, getNode?, Node.children,
                  modifyIdx_getElem?_self, hc, Option.map] at this ⊢
                exact this
            · simp [backprop, getNode?, Node.children,
                modifyIdx_getElem?_ne cs i j _ hji]

/-- A tiny concrete tree: a root with two children, the chain `[0]`. -/
def c3Tree : Node :=
  ⟨scenarioState, 2, 1, some [⟨scenarioState, 1, 0, none⟩, ⟨scenarioState, 1, 1, none⟩]⟩

/-- Witness for C3: backpropagating outcome 1 along path `[0]` of the
concrete tree bumps the root (`q = []`, on the chain), and leaves the
sibling (`q = [1]`, off the chain) unchanged. -/
theorem backprop_chain_update_witness :
    (getNode? [0] c3Tree).isSome = true ∧
    ((getNode? [] (backprop 1 [0] c3Tree)).map Node.simulations
        = (getNode? [] c3Tree).map (fun n => n.simulations + 1) ∧
      (getNode? [] (backprop 1 [0] c3Tree)).map Node.wins
        = (getNode? [] c3Tree).map (fun n => n.wins + 1)) ∧
    getNode? [1] (backprop 1 [0] c3Tree) = getNode? [1] c3Tree := by
  have h := backprop_chain_update 1 [0] c3Tree (by decide)
  exact ⟨by decide, h.1 [] (by decide), h.2.1 [1] (by decide)⟩

/-! ### Selection policy (`select_child`) -/

/-- The key computed by the `lambda child:` of `select_child`.  By Python's
conditional-expression precedence the whole expression is
`(winrate + sqrt(100) * sqrt(log(node.simulations)/child.simulations))
 if child.simulations else float('inf')`: a child with zero simulations
gets `float('inf')` (here `⊤ : WithTop ℝ`) and neither the win-rate ratio
nor the exploration term is computed for it. -/
noncomputable def selectKey (pSims : ℕ) (c : Node) : WithTop ℝ :=
  if c.simulations = 0 then ⊤
  else (((c.wins : ℝ) / (c.simulations : ℝ)
      + Real.sqrt 100 * Real.sqrt (Real.log (pSims : ℝ) / (c.simulations : ℝ)) : ℝ) : WithTop ℝ)

/-- Python's `max(iterable, key=...)` scan: fold the remaining elements,
replacing the current best only on a strictly greater key, so ties keep
the earliest element.  The accumulator carries the index of the best
element so far; `i` is the index of the next element examined. -/
def argmaxAux {α β : Type} [LinearOrder β] (key : α → β) :
    List α → ℕ → ℕ × α → ℕ × α
  | [], _, b => b
  | c :: cs, i, b =>
    argmaxAux key cs (i + 1) (if key b.2 < key c then (i, c) else b)

/-- `max(node.children, key=...)` together with the position of the chosen
child (`none` when the children list is absent or empty, where Python
would raise). -/
noncomputable def selectPair (pSims : ℕ) : List Node → Option (ℕ × Node)
  | [] => none
  | c :: cs => some (argmaxAux (selectKey pSims) cs 1 (0, c))

/-- The index of the child chosen by `select_child` within the children
list. -/
noncomputable def selectChildIdx (pSims : ℕ) (cs : List Node) : ℕ :=
  ((selectPair pSims cs).map Prod.fst).getD 0

/-- `select_child(node)`: the child maximizing the UCB-style key, first
maximal element on ties. -/
noncomputable def select_child (n : Node) : Option Node :=
  match n.children with
  | some cs => (selectPair n.simulations cs).map Prod.snd
  | none => none

/-! ### The per-iteration tree walk of `mcts` -/

/-- A `getD` whose default is itself a member stays in the list. -/
theorem getD_mem_of_mem {α : Type} (l : List α) (i : ℕ) (d : α) (hd : d ∈ l) :
    l.getD i d ∈ l := by
  by_cases h : i < l.length
  · rw [List.getD_eq_getElem _ _ h]
    exact l.getElem_mem h
  · rw [List.getD_eq_default _ _ (Nat.le_of_not_lt h)]
    exact hd

/-- A node's children list is smaller than the node. -/
theorem sizeOf_children_lt (s : State) (k : ℕ) (w : ℚ) (cs : List Node) :
    sizeOf cs < sizeOf (⟨s, k, w, some cs⟩ : Node) := by
  simp only [Node.mk.sizeOf_spec, Option.some.sizeOf_spec]
  omega

/-- The `while curr_node.children:` descent of `mcts` (lines 78–84),
returning the node the walk stops at together with its path of child
indices.  With a present, nonempty children list: if every child has been
simulated, descend through `select_child`; otherwise step into the first
unsimulated child and stop (`break`).  A missing (`None`) or empty
children list is falsy in Python and ends the walk. -/
noncomputable def descendNP : Node → Node × List ℕ
  | ⟨s, k, w, none⟩ => (⟨s, k, w, none⟩, [])
  | ⟨s, k, w, some []⟩ => (⟨s, k, w, some []⟩, [])
  | ⟨s, k, w, some (c :: cs)⟩ =>
    if (c :: cs).all (fun ch => decide (0 < ch.simulations)) then
      let i := selectChildIdx k (c :: cs)
      let r := descendNP ((c :: cs).getD i c)
      (r.1, i :: r.2)
    else
      let j := (c :: cs).findIdx (fun ch => ch.simulations == 0)
      ((c :: cs).getD j c, [j])
termination_by n => sizeOf n
decreasing_by
  exact Nat.lt_trans
    (List.sizeOf_lt_of_mem (getD_mem_of_mem (c :: cs) i c (List.mem_cons_self c cs)))
    (sizeOf_children_lt s k w (c :: cs))

/-- The playout loop of `random_rollout` (lines 95–100), with an explicit
fuel bounding the number of applied moves: stop as soon as a winner is
reported or no legal move remains, otherwise apply the chosen "random"
legal move and continue.  Returns the final `winner` value and the
advanced random counter, or `none` if the fuel ran out before a terminal
state (which never happens with fuel `countEmpty s`, see
`rollout_terminates_within_empty_cells`). -/
def rolloutLoop (g : ℕ → ℕ) : ℕ → ℕ → State → Option (Option Turn × ℕ)
  | 0, k, s =>
    if (check_win_conditions s).isSome ∨ get_valid_actions s = [] then
      some (check_win_conditions s, k)
    else none
  | f + 1, k, s =>
    if (check_win_conditions s).isSome ∨ get_valid_actions s = [] then
      some (check_win_conditions s, k)
    else
      rolloutLoop g f (k + 1)
        (apply_action
          ((get_valid_actions s).getD (g k % (get_valid_actions s).length) (0, 0)) s)

/-- Lines 75–76 of `mcts`: `if not root.children: expand(root)` — the
root is expanded whenever its children field is falsy (`None` *or* an
empty list), recording what the field held at the call. -/
def expandRoot (t : Node) : Node × List (Option ℕ) :=
  match t.children with
  | none => (expand t, [childCount t])
  | some [] => (expand t, [childCount t])
  | some (_ :: _) => (t, [])

/-- Lines 86–88 of `mcts`: when the node the descent stopped at has
already been simulated, expand it (recording what its `children` field
held) and move to a "random" child of the new children when any exist.
Returns the node to roll out from, its path, the advanced random counter,
and the expand log of this phase. -/
def leafStep (g : ℕ → ℕ) (k : ℕ) (dp : Node × List ℕ) :
    Node × List ℕ × ℕ × List (Option ℕ) :=
  if 0 < dp.1.simulations then
    match (expand dp.1).children with
    | some (c :: cs) =>
      let j := g k % (c :: cs).length
      ((c :: cs).getD j c, dp.2 ++ [j], k + 1, [childCount dp.1])
    | _ => (expand dp.1, dp.2, k, [childCount dp.1])
  else (dp.1, dp.2, k, [])

/-- One iteration of the `for` body of `mcts(search_tree, max_steps)`
(lines 75–90 plus the `random_rollout` call): lazily expand a falsy root,
descend, expand the reached node when it was already simulated (moving to
a random new child when one exists), roll out with fuel `countEmpty`, and
backpropagate the outcome along the path to the root.  Besides the new
tree and random counter, returns the ghost log of what the `children`
field held at each `expand` invocation. -/
noncomputable def mctsIter (g : ℕ → ℕ) (t : Node) (k : ℕ) :
    Node × ℕ × List (Option ℕ) :=
  let e1 := expandRoot t
  let dp := descendNP e1.1
  let e2 := leafStep g k dp
  let t2 := if 0 < dp.1.simulations then updateAt dp.2 expand e1.1 else e1.1
  let ro := (rolloutLoop g (countEmpty e2.1.state) e2.2.2.1 e2.1.state).getD
      (check_win_conditions e2.1.state, e2.2.2.1)
  (backprop (rolloutScore ro.1 e2.1.state.turn) e2.2.1 t2, ro.2, e1.2 ++ e2.2.2.2)

/-- `mcts(search_tree, max_steps)`: run `max_steps` iterations, threading
the tree and the random counter and accumulating the expand log. -/
noncomputable def mcts (g : ℕ → ℕ) : ℕ → Node → ℕ → Node × ℕ × List (Option ℕ)
  | 0, t, k => (t, k, [])
  | n + 1, t, k =>
    let st := mctsIter g t k
    let rest := mcts g n st.1 st.2.1
    (rest.1, rest.2.1, st.2.2 ++ rest.2.2)

/-! ### Root advance (`play_game`, lines 152–162) -/

/-- The root replacement performed by `play_game` after a move: when the
root has a truthy (present, nonempty) children list, the first child whose
board equals the resulting board becomes the new root (in the embedding a
node carries no parent field, so `tree.root.parent = None` has no
counterpart to model); otherwise a fresh zero-statistics root is built for
the resulting state. -/
def advance (t : Node) (s' : State) : Node :=
  match t.children with
  | none => freshNode s'
  | some [] => freshNode s'
  | some (c :: cs) =>
    match (c :: cs).find? (fun ch => ch.state.board == s'.board) with
    | some m => m
    | none => freshNode s'

/-! ### C9: the rollout loop terminates within the number of empty cells -/

/-- `modifyIdx` preserves length. -/
theorem modifyIdx_length {α : Type} (l : List α) (i : ℕ) (f : α → α) :
    (modifyIdx l i f).length = l.length := by
  induction l generalizing i with
  | nil => cases i <;> rfl
  | cons a l ih =>
    cases i with
    | zero => rfl
    | succ i' => simpa [modifyIdx] using ih i'

/-- Members of `modifyIdx l i f` are members of `l` or images under `f`. -/
theorem mem_modifyIdx {α : Type} (l : List α) (i : ℕ) (f : α → α) (b : α)
    (hb : b ∈ modifyIdx l i f) : b ∈ l ∨ ∃ a ∈ l, b = f a := by
  induction l generalizing i with
  | nil => exact absurd hb (by cases i <;> simp [modifyIdx])
  | cons a l ih =>
    cases i with
    | zero =>
      rcases List.mem_cons.1 hb with h | h
      · exact Or.inr ⟨a, List.mem_cons_self _ _, h⟩
      · exact Or.inl (List.mem_cons_of_mem _ h)
    | succ i' =>
      rcases List.mem_cons.1 hb with h | h
      · exact Or.inl (h ▸ List.mem_cons_self _ _)
      · rcases ih i' h with h' | ⟨a', ha', hb'⟩
        · exact Or.inl (List.mem_cons_of_mem _ h')
        · exact Or.inr ⟨a', List.mem_cons_of_mem _ ha', hb'⟩

/-- `apply_action` keeps boards well-formed. -/
theorem WFBoard_apply_action (s : State) (a : ℕ × ℕ) (hwf : WFBoard s.board) :
    WFBoard (apply_action a s).board := by
  obtain ⟨hlen, hrows⟩ := hwf
  refine ⟨by simpa [apply_action, modifyIdx_length] using hlen, ?_⟩
  intro r hr
  rcases mem_modifyIdx _ _ _ r hr with h | ⟨row, hrow, rfl⟩
  · exact hrows r h
  · simpa [List.length_set] using hrows row hrow

/-- Membership in the row-major cell enumeration. -/
theorem mem_allCells (a : ℕ × ℕ) : a ∈ allCells ↔ a.1 < 3 ∧ a.2 < 3 := by
  cases a with
  | mk x y =>
    simp only [allCells, List.mem_flatMap, List.mem_map, List.mem_range]
    constructor
    · rintro ⟨x', hx', y', hy', h⟩
      cases h
      exact ⟨hx', hy'⟩
    · rintro ⟨hx, hy⟩
      exact ⟨x, hx, y, hy, rfl⟩

/-- `allCells` enumerates each coordinate exactly once. -/
theorem allCells_nodup : allCells.Nodup := by
  decide

/-- The mover's cell value is never the empty value 0. -/
theorem turn_value_ne_zero (t : Turn) : t.value ≠ 0 := by
  cases t <;> decide

/-- Effect of `apply_action` on an in-range cell read: the target cell now
holds the mover's value, all other cells are unchanged. -/
theorem cell_apply_action (s : State) (x y : ℕ) (hwf : WFBoard s.board)
    (hx : x < 3) (hy : y < 3) (u v : ℕ) :
    cell (apply_action (x, y) s).board u v =
      if u = x ∧ v = y then s.turn.value else cell s.board u v := by
  obtain ⟨hlen, hrows⟩ := hwf
  by_cases hu : u = x
  · subst hu
    have hxlen : u < s.board.length := by rw [hlen]; exact hx
    have hrow : (apply_action (u, y) s).board.getD u [] =
        (s.board.getD u []).set y s.turn.value := by
      show (modifyIdx s.board u _).getD u [] = _
      rw [modifyIdx_getD _ _ _ _ hxlen]
    have hrowlen : (s.board.getD u []).length = 3 := by
      rw [List.getD_eq_getElem _ _ hxlen]
      exact hrows _ (s.board.getElem_mem hxlen)
    by_cases hv : v = y
    · subst hv
      have hvlen : v < ((s.board.getD u []).set v s.turn.value).length := by
        rw [List.length_set, hrowlen]; exact hy
      simp only [cell, hrow, and_self, if_pos]
      rw [List.getD_eq_getElem _ _ hvlen, List.getElem_set_self]
    · have : (¬(u = u ∧ v = y)) := fun h => hv h.2
      rw [if_neg this]
      simp only [cell, hrow, List.getD_eq_getElem?_getD,
        List.getElem?_set_ne (fun h => hv h.symm)]
  · have : (¬(u = x ∧ v = y)) := fun h => hu h.1
    rw [if_neg this]
    have hrow : (apply_action (x, y) s).board.getD u [] = s.board.getD u [] := by
      show (modifyIdx s.board x _).getD u [] = _
      rw [List.getD_eq_getElem?_getD, List.getD_eq_getElem?_getD,
        modifyIdx_getElem?_ne _ _ _ _ hu]
    simp only [cell, hrow]

/-- Replacing the filter predicate by one that newly excludes a single
element of a duplicate-free list shrinks the filtered length by one. -/
theorem filter_length_drop_one {α : Type} (l : List α) (p q : α → Bool) (a : α)
    (hnd : l.Nodup) (ha : a ∈ l) (hpa : p a = true) (hqa : q a = false)
    (hother : ∀ b ∈ l, b ≠ a → q b = p b) :
    (l.filter q).length + 1 = (l.filter p).length := by
  induction l with
  | nil => exact absurd ha (by simp)
  | cons c l ih =>
    obtain ⟨hcl, hndl⟩ := List.nodup_cons.1 hnd
    rcases List.mem_cons.1 ha with rfl | hal
    · have hq : List.filter q (a :: l) = List.filter q l := by
        simp [List.filter_cons, hqa]
      have hp : List.filter p (a :: l) = a :: List.filter p l := by
        simp [List.filter_cons, hpa]
      have hsame : List.filter q l = List.filter p l :=
        List.filter_congr (fun b hb =>
          hother b (List.mem_cons_of_mem _ hb) (fun hc => hcl (hc ▸ hb)))
      rw [hq, hp, hsame]
      simp
    · have hca : c ≠ a := fun hc => hcl (hc ▸ hal)
      have hqc : q c = p c := hother c (List.mem_cons_self _ _) hca
      have := ih hndl hal (fun b hb hba => hother b (List.mem_cons_of_mem _ hb) hba)
      cases hpc : p c with
      | true =>
        have h1 : List.filter q (c :: l) = c :: List.filter q l := by
          simp [List.filter_cons, hqc, hpc]
        have h2 : List.filter p (c :: l) = c :: List.filter p l := by
          simp [List.filter_cons, hpc]
        rw [h1, h2, List.length_cons, List.length_cons]
        omega
      | false =>
        have h1 : List.filter q (c :: l) = List.filter q l := by
          simp [List.filter_cons, hqc, hpc]
        have h2 : List.filter p (c :: l) = List.filter p l := by
          simp [List.filter_cons, hpc]
        rw [h1, h2]
        omega

/-- Each move applied from the legal-move list removes exactly one empty
cell: the empty-cell count strictly decreases by 1. -/
theorem countEmpty_apply_action (s : State) (a : ℕ × ℕ) (hwf : WFBoard s.board)
    (ha : a ∈ get_valid_actions s) :
    countEmpty (apply_action a s) + 1 = countEmpty s := by
  obtain ⟨hmem, hcell⟩ := List.mem_filter.1 ha
  obtain ⟨hx, hy⟩ := (mem_allCells a).1 hmem
  have hcell0 : cell s.board a.1 a.2 = 0 := by simpa using hcell
  unfold countEmpty get_valid_actions
  refine filter_length_drop_one allCells _ _ a allCells_nodup hmem (by simpa using hcell0) ?_ ?_
  · obtain ⟨a1, a2⟩ := a
    simp only [decide_eq_false_iff_not]
    rw [cell_apply_action s a1 a2 hwf hx hy a1 a2]
    simp [turn_value_ne_zero]
  · intro b hb hba
    obtain ⟨hbx, hby⟩ := (mem_allCells b).1 hb
    obtain ⟨a1, a2⟩ := a
    obtain ⟨b1, b2⟩ := b
    have : ¬(b1 = a1 ∧ b2 = a2) := by
      intro ⟨h1, h2⟩
      exact hba (by rw [h1, h2])
    rw [show (cell (apply_action (a1, a2) s).board b1 b2)
        = if b1 = a1 ∧ b2 = a2 then s.turn.value else cell s.board b1 b2 from
      cell_apply_action s a1 a2 hwf hx hy b1 b2, if_neg this]

/-- With fuel at least the number of empty cells, the rollout loop reaches
a terminal state. -/
theorem rolloutLoop_isSome (g : ℕ → ℕ) :
    ∀ (n k : ℕ) (s : State), WFBoard s.board → countEmpty s ≤ n →
      (rolloutLoop g n k s).isSome = true := by
  intro n
  induction n with
  | zero =>
    intro k s hwf hle
    have : get_valid_actions s = [] :=
      List.length_eq_zero.1 (Nat.le_zero.1 hle)
    simp [rolloutLoop, this]
  | succ n ih =>
    intro k s hwf hle
    by_cases hterm : (check_win_conditions s).isSome ∨ get_valid_actions s = []
    · simp [rolloutLoop, hterm]
    · have hne : get_valid_actions s ≠ [] := fun h => hterm (Or.inr h)
      have hpos : 0 < (get_valid_actions s).length := List.length_pos.2 hne
      have hidx : g k % (get_valid_actions s).length < (get_valid_actions s).length :=
        Nat.mod_lt _ hpos
      have hmemact : (get_valid_actions s).getD
          (g k % (get_valid_actions s).length) (0, 0) ∈ get_valid_actions s := by
        rw [List.getD_eq_getElem _ _ hidx]
        exact List.getElem_mem hidx
      have hdec := countEmpty_apply_action s _ hwf hmemact
      have hwf' := WFBoard_apply_action s
        ((get_valid_actions s).getD (g k % (get_valid_actions s).length) (0, 0)) hwf
      simp only [rolloutLoop, if_neg hterm]
      exact ih (k + 1) _ hwf' (by omega)

/-- C9: the search always terminates.  The rollout playout loop, given
fuel equal to the number of empty cells, always reaches a terminal state
(so each playout makes at most `countEmpty` moves — the fuel `mctsIter`
supplies), because each applied legal move strictly decreases the number
of empty cells by one; the per-iteration tree descent is structural
recursion on the finite tree, so `mctsIter` and `mcts` are total functions
and every finite budget `N` returns control to the caller. -/
theorem rollout_terminates_within_empty_cells :
    ∀ (s : State) (g : ℕ → ℕ) (k : ℕ), WFBoard s.board →
      (rolloutLoop g (countEmpty s) k s).isSome = true ∧
      ∀ a ∈ get_valid_actions s, countEmpty (apply_action a s) + 1 = countEmpty s :=
  fun s g k hwf =>
    ⟨rolloutLoop_isSome g (countEmpty s) k s hwf (Nat.le_refl _),
     fun a ha => countEmpty_apply_action s a hwf ha⟩

/-- The empty initial board with X to move. -/
def emptyState : State :=
  { board := [[0, 0, 0], [0, 0, 0], [0, 0, 0]], turn := Turn.x }

/-- Witness for C9 on the empty board with the constant-zero random
stream. -/
theorem rollout_terminates_within_empty_cells_witness :
    WFBoard emptyState.board ∧
    ((rolloutLoop (fun _ => 0) (countEmpty emptyState) 0 emptyState).isSome = true ∧
      ∀ a ∈ get_valid_actions emptyState,
        countEmpty (apply_action a emptyState) + 1 = countEmpty emptyState) :=
  ⟨by decide, rollout_terminates_within_empty_cells emptyState (fun _ => 0) 0 (by decide)⟩

/-! ### C5: the root's simulation count equals the iteration count -/

/-- `expand` leaves the visit count alone. -/
theorem expand_simulations (n : Node) : (expand n).simulations = n.simulations := by
  cases n with
  | mk s k w ch => rfl

/-- Expanding a node anywhere in the tree leaves the root's visit count
alone. -/
theorem updateAt_expand_simulations (p : List ℕ) (t : Node) :
    (updateAt p expand t).simulations = t.simulations := by
  cases p with
  | nil => exact expand_simulations t
  | cons i p' => cases t with | mk s k w ch => rfl

/-- `backprop` always bumps the root's visit count by exactly 1, whatever
the path. -/
theorem backprop_simulations (r : ℚ) (p : List ℕ) (t : Node) :
    (backprop r p t).simulations = t.simulations + 1 := by
  cases p with
  | nil => cases t with | mk s k w ch => rfl
  | cons i p' => cases t with | mk s k w ch => rfl

/-- `expandRoot` leaves the root's visit count alone. -/
theorem expandRoot_simulations (t : Node) :
    (expandRoot t).1.simulations = t.simulations := by
  unfold expandRoot
  rcases hch : t.children with _ | (_ | _) <;> simp [expand_simulations]

/-- Every iteration of the search loop performs exactly one rollout whose
backpropagation reaches the root: the root's visit count goes up by 1. -/
theorem mctsIter_simulations (g : ℕ → ℕ) (t : Node) (k : ℕ) :
    (mctsIter g t k).1.simulations = t.simulations + 1 := by
  unfold mctsIter
  simp only [backprop_simulations]
  split
  · rw [updateAt_expand_simulations, expandRoot_simulations]
  · rw [expandRoot_simulations]

/-- C5: after `N` iterations of the search loop from a fresh root (zero
statistics, no children, any state), the root's simulation count is
exactly `N`. -/
theorem mcts_root_simulations_eq_iterations :
    ∀ (N : ℕ) (g : ℕ → ℕ) (k : ℕ) (s : State),
      (mcts g N (freshNode s) k).1.simulations = N := by
  have key : ∀ (N : ℕ) (g : ℕ → ℕ) (t : Node) (k : ℕ),
      (mcts g N t k).1.simulations = t.simulations + N := by
    intro N g
    induction N with
    | zero => intro t k; simp [mcts]
    | succ n ih =>
      intro t k
      show (mcts g n (mctsIter g t k).1 (mctsIter g t k).2.1).1.simulations = _
      rw [ih, mctsIter_simulations]
      omega
  intro N g k s
  rw [key, show (freshNode s).simulations = 0 from rfl]
  omega

/-! ### C4: which nodes `expand` is invoked on -/

/-- The node the descent stops at either has a falsy children field
(`none` or an empty list) or has never been simulated (the `break` into
the first unsimulated child). -/
theorem descendNP_reaches (n : Node) :
    (descendNP n).1.children = none ∨ (descendNP n).1.children = some [] ∨
      (descendNP n).1.simulations = 0 := by
  induction n using descendNP.induct with
  | case1 s k w => simp [descendNP, Node.children]
  | case2 s k w => simp [descendNP, Node.children]
  | case3 s k w c cs hall i ih =>
    simp only [descendNP, if_pos hall]
    exact ih
  | case4 s k w c cs hall =>
    simp only [descendNP, if_neg hall]
    right; right
    have hex : ∃ ch ∈ c :: cs, (ch.simulations == 0) = true := by
      have h : ¬ ∀ x ∈ c :: cs, decide (0 < x.simulations) = true := by
        simpa [List.all_eq_true] using hall
      push_neg at h
      obtain ⟨ch, hch, hchf⟩ := h
      have hz : ch.simulations = 0 := Nat.eq_zero_of_not_pos (by simpa using hchf)
      exact ⟨ch, hch, by simp [hz]⟩
    have hlt := List.findIdx_lt_length_of_exists hex
    have hget := @List.findIdx_getElem _ (fun ch => ch.simulations == 0) (c :: cs) hlt
    rw [List.getD_eq_getElem _ _ hlt]
    simpa using hget

/-- Good expand-log entries: the `children` field at the moment of the
call was `none` (never expanded) or `some []` (an expanded terminal). -/
def goodEntry (e : Option ℕ) : Bool :=
  e == none || e == some 0

/-- The root-expansion log only records falsy children fields. -/
theorem expandRoot_log_good (t : Node) :
    (expandRoot t).2.all goodEntry = true := by
  unfold expandRoot
  rcases hch : t.children with _ | (_ | _) <;>
    simp [childCount, hch, goodEntry]

/-- The leaf-expansion log only records falsy children fields, provided
the descent delivered a node with falsy children or zero simulations. -/
theorem leafStep_log_good (g : ℕ → ℕ) (k : ℕ) (dp : Node × List ℕ)
    (hdp : dp.1.children = none ∨ dp.1.children = some [] ∨
      dp.1.simulations = 0) :
    (leafStep g k dp).2.2.2.all goodEntry = true := by
  unfold leafStep
  by_cases hs : 0 < dp.1.simulations
  · have hgood : goodEntry (childCount dp.1) = true := by
      rcases hdp with h | h | h
      · simp [childCount, h, goodEntry]
      · simp [childCount, h, goodEntry]
      · omega
    rw [if_pos hs]
    split <;> simp [hgood]
  · rw [if_neg hs]
    rfl

/-- Each iteration only invokes `expand` on nodes whose `children` field
is `none` or an empty list. -/
theorem mctsIter_log_good (g : ℕ → ℕ) (t : Node) (k : ℕ) :
    (mctsIter g t k).2.2.all goodEntry = true := by
  have hsplit : (mctsIter g t k).2.2 =
      (expandRoot t).2 ++
        (leafStep g k (descendNP (expandRoot t).1)).2.2.2 := rfl
  rw [hsplit, List.all_append, expandRoot_log_good,
    leafStep_log_good g k _ (descendNP_reaches (expandRoot t).1)]
  rfl

/-- C4 (amended): throughout every run of the `mcts` search loop, from any
starting tree, `expand` is invoked only on nodes whose `children` field is
falsy — `none` (never expanded) or an empty list (an expanded terminal
node, which the source's truthiness tests treat like an unexpanded one and
re-expands, harmlessly overwriting `[]` with `[]`).  A node whose
`children` field holds a *nonempty* list is never re-expanded, so a
nonempty children list is never overwritten. -/
theorem expand_only_on_falsy_children :
    ∀ (N : ℕ) (g : ℕ → ℕ) (k : ℕ) (t : Node),
      ((mcts g N t k).2.2).all goodEntry = true := by
  intro N g
  induction N with
  | zero => intro k t; rfl
  | succ n ih =>
    intro k t
    have hsplit : (mcts g (n + 1) t k).2.2 =
        (mctsIter g t k).2.2 ++
          (mcts g n (mctsIter g t k).1 (mctsIter g t k).2.1).2.2 := rfl
    rw [hsplit, List.all_append, mctsIter_log_good, ih]
    rfl

/-- A full board with no completed line (a drawn position), X to move. -/
def drawnState : State :=
  { board := [[1, 2, 1], [1, 2, 2], [2, 1, 1]], turn := Turn.x }

/-- C4 counterexample: running `mcts` for 2 iterations from a fresh root
at the full (terminal) board `drawnState`, the expand log is
`[none, some 0, some 0]`: the first iteration expands the fresh root
(children field `none`, as the claim demands), but the second iteration
invokes `expand` twice more on the root — whose children field at both
calls is *present* (`some 0` records a present list of length 0), because
`if not root.children:` and the leaf-handling step treat the empty
children list of the expanded terminal node as falsy.  So `expand` is
invoked on a node whose children field is not `none`, refuting the claim
that only never-expanded (`children = none`) nodes are expanded. -/
theorem mcts_reexpands_expanded_terminal_cex :
    (mcts (fun _ => 0) 2 (freshNode drawnState) 0).2.2
      = [none, some 0, some 0] := by
  have h2a : descendNP (⟨drawnState, 0, 0, some []⟩ : Node)
      = (⟨drawnState, 0, 0, some []⟩, []) := by
    simp only [descendNP]
  have h2b : descendNP (⟨drawnState, 1, 0 + 1/2, some []⟩ : Node)
      = (⟨drawnState, 1, 0 + 1/2, some []⟩, []) := by
    simp only [descendNP]
  have hiter1 : mctsIter (fun _ => 0) (freshNode drawnState) 0
      = (⟨drawnState, 1, 0 + 1/2, some []⟩, 0, [none]) := by
    unfold mctsIter
    have h1 : expandRoot (freshNode drawnState)
        = (⟨drawnState, 0, 0, some []⟩, [none]) := rfl
    simp only [h1, h2a]
    rfl
  have hiter2 : mctsIter (fun _ => 0) (⟨drawnState, 1, 0 + 1/2, some []⟩ : Node) 0
      = (⟨drawnState, 2, 0 + 1/2 + 1/2, some []⟩, 0, [some 0, some 0]) := by
    unfold mctsIter
    have h3 : expandRoot (⟨drawnState, 1, 0 + 1/2, some []⟩ : Node)
        = (⟨drawnState, 1, 0 + 1/2, some []⟩, [some 0]) := rfl
    simp only [h3, h2b]
    rfl
  show (mcts (fun _ => 0) (1 + 1) (freshNode drawnState) 0).2.2 = _
  simp only [mcts, hiter1, hiter2]
  rfl

/-! ### C6 / C7: the selection policy -/

/-- The score of the claim's UCB formula, stated from the spec's words:
win rate plus `10 × sqrt(ln(parent.simulations) / child.simulations)`
(with `10 = sqrt(100)`, the fixed exploration constant).  This is the
reference formula `select_child`'s source-derived key is compared with. -/
noncomputable def ucbScore (pSims : ℕ) (c : Node) : ℝ :=
  (c.wins : ℝ) / (c.simulations : ℝ)
    + 10 * Real.sqrt (Real.log (pSims : ℝ) / (c.simulations : ℝ))

/-- The exploration constant of the source, `sqrt(100)`, is 10. -/
theorem sqrt_hundred : Real.sqrt 100 = 10 := by
  rw [show (100 : ℝ) = 10 ^ 2 by norm_num, Real.sqrt_sq (by norm_num)]

/-- On a simulated child the source's selection key is exactly the spec's
UCB score (as a finite extended real). -/
theorem selectKey_eq_ucbScore (pSims : ℕ) (c : Node) (h : c.simulations ≠ 0) :
    selectKey pSims c = ((ucbScore pSims c : ℝ) : WithTop ℝ) := by
  unfold selectKey ucbScore
  rw [if_neg h, sqrt_hundred]

/-- The specification of the `max` scan: the returned index/element pair
is the first maximal element of `pre ++ cs`, given that the accumulator is
the first maximal element of the prefix `pre` scanned so far. -/
theorem argmaxAux_spec {α β : Type} [LinearOrder β] (key : α → β) :
    ∀ (cs pre : List α) (bi : ℕ) (bc : α),
      bi < pre.length → pre[bi]? = some bc →
      (∀ (j : ℕ) (y : α), pre[j]? = some y → key y ≤ key bc) →
      (∀ (j : ℕ) (y : α), j < bi → pre[j]? = some y → key y < key bc) →
      ((pre ++ cs)[(argmaxAux key cs pre.length (bi, bc)).1]?
          = some (argmaxAux key cs pre.length (bi, bc)).2) ∧
      (∀ (j : ℕ) (y : α), (pre ++ cs)[j]? = some y →
          key y ≤ key (argmaxAux key cs pre.length (bi, bc)).2) ∧
      (∀ (j : ℕ) (y : α), j < (argmaxAux key cs pre.length (bi, bc)).1 →
          (pre ++ cs)[j]? = some y →
          key y < key (argmaxAux key cs pre.length (bi, bc)).2) := by
  intro cs
  induction cs with
  | nil =>
    intro pre bi bc hbi hget hle hlt
    refine ⟨by simpa using hget, ?_, ?_⟩
    · intro j y hy
      exact hle j y (by simpa using hy)
    · intro j y hj hy
      exact hlt j y hj (by simpa using hy)
  | cons c cs ih =>
    intro pre bi bc hbi hget hle hlt
    have hassoc : (pre ++ [c]) ++ cs = pre ++ c :: cs := by
      rw [List.append_assoc]; rfl
    have hlen : (pre ++ [c]).length = pre.length + 1 := by simp
    rw [show argmaxAux key (c :: cs) pre.length (bi, bc)
        = argmaxAux key cs (pre.length + 1)
            (if key bc < key c then (pre.length, c) else (bi, bc)) from rfl]
    by_cases hc : key bc < key c
    · rw [if_pos hc]
      have h := ih (pre ++ [c]) pre.length c
        (by omega)
        (List.getElem?_concat_length pre c)
        (by
          intro j y hy
          by_cases hj : j < pre.length
          · rw [List.getElem?_append, if_pos hj] at hy
            exact le_of_lt (lt_of_le_of_lt (hle j y hy) hc)
          · have hj' : j = pre.length := by
              by_contra hne
              have : (pre ++ [c])[j]? = none :=
                List.getElem?_eq_none (by simp; omega)
              rw [this] at hy
              exact Option.noConfusion hy
            subst hj'
            rw [List.getElem?_concat_length] at hy
            rw [← Option.some.inj hy])
        (by
          intro j y hj hy
          rw [List.getElem?_append, if_pos hj] at hy
          exact lt_of_le_of_lt (hle j y hy) hc)
      rw [hlen, hassoc] at h
      exact h
    · rw [if_neg hc]
      have h := ih (pre ++ [c]) bi bc
        (by omega)
        (by rw [List.getElem?_append, if_pos hbi]; exact hget)
        (by
          intro j y hy
          by_cases hj : j < pre.length
          · rw [List.getElem?_append, if_pos hj] at hy
            exact hle j y hy
          · have hj' : j = pre.length := by
              by_contra hne
              have : (pre ++ [c])[j]? = none :=
                List.getElem?_eq_none (by simp; omega)
              rw [this] at hy
              exact Option.noConfusion hy
            subst hj'
            rw [List.getElem?_concat_length] at hy
            rw [← Option.some.inj hy]
            exact le_of_not_lt hc)
        (by
          intro j y hj hy
          have hjpre : j < pre.length := by omega
          rw [List.getElem?_append, if_pos hjpre] at hy
          exact hlt j y hj hy)
      rw [hlen, hassoc] at h
      exact h

/-- `select_child` on a nonempty children list returns the first maximal
element of the source's key. -/
theorem selectPair_spec (pSims : ℕ) (c : Node) (rest : List Node) :
    ∃ (i : ℕ) (m : Node),
      selectPair pSims (c :: rest) = some (i, m) ∧
      (c :: rest)[i]? = some m ∧
      (∀ (j : ℕ) (y : Node), (c :: rest)[j]? = some y →
          selectKey pSims y ≤ selectKey pSims m) ∧
      (∀ (j : ℕ) (y : Node), j < i → (c :: rest)[j]? = some y →
          selectKey pSims y < selectKey pSims m) := by
  have h := argmaxAux_spec (selectKey pSims) rest [c] 0 c
    (by simp) (by simp) ?_ ?_
  · refine ⟨(argmaxAux (selectKey pSims) rest 1 (0, c)).1,
      (argmaxAux (selectKey pSims) rest 1 (0, c)).2, rfl, ?_, ?_, ?_⟩
    · simpa using h.1
    · intro j y hy
      exact h.2.1 j y (by simpa using hy)
    · intro j y hj hy
      refine h.2.2 j y (by simpa using hj) (by simpa using hy)
  · intro j y hy
    cases j with
    | zero => simp at hy; rw [hy]
    | succ j' => simp at hy
  · intro j y hj hy
    omega

/-- C6: for a node whose children have all been simulated at least once
and whose own count is at least 1, `select_child` returns the first child
(in enumeration order) maximizing the score
`wins/simulations + 10 * sqrt(ln(parent.simulations)/simulations)`
(`10 = sqrt(100)` is the fixed exploration constant); ties go to the
earliest maximal child. -/
theorem select_child_first_argmax (n : Node) (cs : List Node)
    (hch : n.children = some cs) (hne : cs ≠ [])
    (hsims : ∀ c ∈ cs, 1 ≤ c.simulations) (_hn : 1 ≤ n.simulations) :
    ∃ (i : ℕ) (m : Node),
      select_child n = some m ∧ cs[i]? = some m ∧
      (∀ (j : ℕ) (y : Node), cs[j]? = some y →
          ucbScore n.simulations y ≤ ucbScore n.simulations m) ∧
      (∀ (j : ℕ) (y : Node), j < i → cs[j]? = some y →
          ucbScore n.simulations y < ucbScore n.simulations m) := by
  obtain ⟨c, rest, rfl⟩ : ∃ c rest, cs = c :: rest := by
    cases cs with
    | nil => exact absurd rfl hne
    | cons c rest => exact ⟨c, rest, rfl⟩
  obtain ⟨i, m, hpair, hgot, hle, hlt⟩ := selectPair_spec n.simulations c rest
  have hkey : ∀ y ∈ c :: rest, selectKey n.simulations y
      = ((ucbScore n.simulations y : ℝ) : WithTop ℝ) := fun y hy =>
    selectKey_eq_ucbScore n.simulations y
      (Nat.one_le_iff_ne_zero.1 (hsims y hy))
  have hm : m ∈ c :: rest := List.getElem?_mem hgot
  refine ⟨i, m, ?_, hgot, ?_, ?_⟩
  · have hsel : select_child n = (selectPair n.simulations (c :: rest)).map Prod.snd := by
      unfold select_child
      rw [hch]
    rw [hsel, hpair]
    rfl
  · intro j y hy
    have := hle j y hy
    rw [hkey y (List.getElem?_mem hy), hkey m hm] at this
    exact WithTop.coe_le_coe.1 this
  · intro j y hj hy
    have := hlt j y hj hy
    rw [hkey y (List.getElem?_mem hy), hkey m hm] at this
    exact WithTop.coe_lt_coe.1 this

/-- A concrete parent for the C6 witness: one simulation, two children
with one simulation each and win scores 1 and 0. -/
def c6Node : Node :=
  ⟨scenarioState, 1, 0,
    some [⟨scenarioState, 1, 1, none⟩, ⟨scenarioState, 1, 0, none⟩]⟩

/-- Witness for C6 at `c6Node`. -/
theorem select_child_first_argmax_witness :
    ((c6Node.children = some [⟨scenarioState, 1, 1, none⟩, ⟨scenarioState, 1, 0, none⟩]) ∧
      (∀ c ∈ [(⟨scenarioState, 1, 1, none⟩ : Node), ⟨scenarioState, 1, 0, none⟩],
        1 ≤ c.simulations) ∧ 1 ≤ c6Node.simulations) ∧
    ∃ (i : ℕ) (m : Node),
      select_child c6Node = some m ∧
      [(⟨scenarioState, 1, 1, none⟩ : Node), ⟨scenarioState, 1, 0, none⟩][i]? = some m ∧
      (∀ (j : ℕ) (y : Node),
          [(⟨scenarioState, 1, 1, none⟩ : Node), ⟨scenarioState, 1, 0, none⟩][j]? = some y →
          ucbScore c6Node.simulations y ≤ ucbScore c6Node.simulations m) ∧
      (∀ (j : ℕ) (y : Node), j < i →
          [(⟨scenarioState, 1, 1, none⟩ : Node), ⟨scenarioState, 1, 0, none⟩][j]? = some y →
          ucbScore c6Node.simulations y < ucbScore c6Node.simulations m) :=
  ⟨⟨rfl, by decide, by decide⟩,
    select_child_first_argmax c6Node _ rfl (by simp) (by decide) (by decide)⟩

/-- Keys never exceeding the accumulator's leave the scan on its initial
accumulator (Python's `max` keeps the first among ties). -/
theorem argmaxAux_const {α β : Type} [LinearOrder β] (key : α → β) :
    ∀ (cs : List α) (i : ℕ) (b : ℕ × α),
      (∀ x ∈ cs, key x ≤ key b.2) → argmaxAux key cs i b = b := by
  intro cs
  induction cs with
  | nil => intro i b _; rfl
  | cons c cs ih =>
    intro i b hle
    show argmaxAux key cs (i + 1) (if key b.2 < key c then (i, c) else b) = b
    rw [if_neg (not_lt.2 (hle c (List.mem_cons_self _ _)))]
    exact ih (i + 1) b (fun x hx => hle x (List.mem_cons_of_mem _ hx))

/-- C7: the degenerate zero-simulation cases of `select_child` are defined
special cases, not runtime faults.  (a) A child with zero simulations is
assigned the infinite key `⊤` outright — by the conditional's structure
neither the win-rate ratio `wins/simulations` nor the exploration term is
evaluated for it, so no division by zero arises from it; (b) the ratio and
the logarithm-bearing exploration term are only ever computed for a child
with nonzero simulations; (c) selection over a node all of whose children
have zero simulations is well-defined and returns the first child. -/
theorem select_child_zero_sims_defined :
    (∀ (p : ℕ) (c : Node), c.simulations = 0 → selectKey p c = ⊤) ∧
    (∀ (p : ℕ) (c : Node), c.simulations ≠ 0 →
      selectKey p c = (((c.wins : ℝ) / (c.simulations : ℝ)
        + Real.sqrt 100 * Real.sqrt (Real.log (p : ℝ) / (c.simulations : ℝ)) : ℝ)
          : WithTop ℝ)) ∧
    (∀ (n : Node) (c : Node) (rest : List Node),
      n.children = some (c :: rest) → (∀ x ∈ c :: rest, x.simulations = 0) →
      select_child n = some c) := by
  refine ⟨?_, ?_, ?_⟩
  · intro p c h
    unfold selectKey
    rw [if_pos h]
  · intro p c h
    unfold selectKey
    rw [if_neg h]
  · intro n c rest hch hz
    have hkeys : ∀ x ∈ rest, selectKey n.simulations x ≤ selectKey n.simulations c := by
      intro x hx
      have hxz : selectKey n.simulations x = ⊤ := by
        unfold selectKey
        rw [if_pos (hz x (List.mem_cons_of_mem _ hx))]
      have hcz : selectKey n.simulations c = ⊤ := by
        unfold selectKey
        rw [if_pos (hz c (List.mem_cons_self _ _))]
      rw [hxz, hcz]
    show (match n.children with
      | some cs => (selectPair n.simulations cs).map Prod.snd
      | none => none) = some c
    rw [hch]
    show Option.map Prod.snd
        (some (argmaxAux (selectKey n.simulations) rest 1 (0, c))) = some c
    rw [argmaxAux_const (selectKey n.simulations) rest 1 (0, c) hkeys]
    rfl

/-- A node with two zero-simulation children for the C7 witness. -/
def c7Node : Node :=
  ⟨scenarioState, 0, 0,
    some [⟨scenarioState, 0, 0, none⟩, ⟨scenarioState, 0, 0, none⟩]⟩

/-- Witness for C7: the zero-simulation key is `⊤` and the all-zero
selection returns the first child, at concrete inputs. -/
theorem select_child_zero_sims_defined_witness :
    ((⟨scenarioState, 0, 0, none⟩ : Node).simulations = 0 ∧
      selectKey 5 ⟨scenarioState, 0, 0, none⟩ = ⊤) ∧
    (c7Node.children = some [⟨scenarioState, 0, 0, none⟩, ⟨scenarioState, 0, 0, none⟩] ∧
      select_child c7Node = some ⟨scenarioState, 0, 0, none⟩) :=
  ⟨⟨rfl, select_child_zero_sims_defined.1 5 _ rfl⟩,
   ⟨rfl, select_child_zero_sims_defined.2.2 c7Node _ _ rfl (by decide)⟩⟩

/-! ### C8: `Advance` preserves statistics -/

/-- `find?` returns the unique element satisfying the predicate. -/
theorem find?_eq_some_of_unique {α : Type} (l : List α) (p : α → Bool) (c : α)
    (hc : c ∈ l) (hpc : p c = true)
    (huniq : ∀ x ∈ l, p x = true → x = c) :
    l.find? p = some c := by
  induction l with
  | nil => exact absurd hc (by simp)
  | cons a l ih =>
    cases hpa : p a with
    | true =>
      rw [List.find?_cons_of_pos _ hpa]
      rw [huniq a (List.mem_cons_self _ _) hpa]
    | false =>
      rw [List.find?_cons_of_neg _ (by simp [hpa])]
      have hca : c ≠ a := fun h => by rw [h, hpa] at hpc; exact Bool.noConfusion hpc
      rcases List.mem_cons.1 hc with h | h
      · exact absurd h hca
      · exact ih h (fun x hx hpx => huniq x (List.mem_cons_of_mem _ hx) hpx)

/-- C8: the root replacement of `play_game` preserves node statistics.
If the current root has a child whose board equals the resulting board
(the unique such child), that child itself becomes the new root — its
simulation count, win score and entire children subtree unchanged (the
embedding carries no parent field; the new root is by construction
parentless, matching the cleared parent link).  Otherwise a fresh root
with zero simulations and zero wins is created for the resulting state. -/
theorem advance_preserves_statistics :
    ∀ (t : Node) (s' : State),
      (∀ c : Node, c ∈ t.children.getD [] → c.state.board = s'.board →
        (∀ c' ∈ t.children.getD [], c'.state.board = s'.board → c' = c) →
        advance t s' = c ∧
        (advance t s').simulations = c.simulations ∧
        (advance t s').wins = c.wins ∧
        (advance t s').children = c.children) ∧
      ((∀ c ∈ t.children.getD [], c.state.board ≠ s'.board) →
        advance t s' = freshNode s' ∧
        (advance t s').simulations = 0 ∧ (advance t s').wins = 0) := by
  intro t s'
  rcases hch : t.children with _ | cs
  · refine ⟨fun c hc _ _ => by simp [hch] at hc, fun _ => ?_⟩
    have : advance t s' = freshNode s' := by
      unfold advance
      rw [hch]
    exact ⟨this, by rw [this]; rfl, by rw [this]; rfl⟩
  · cases cs with
    | nil =>
      refine ⟨fun c hc _ _ => by simp [hch] at hc, fun _ => ?_⟩
      have : advance t s' = freshNode s' := by
        unfold advance
        rw [hch]
      exact ⟨this, by rw [this]; rfl, by rw [this]; rfl⟩
    | cons c0 rest =>
      have hadv : advance t s' =
          (match (c0 :: rest).find? (fun ch => ch.state.board == s'.board) with
           | some m => m
           | none => freshNode s') := by
        unfold advance
        rw [hch]
      constructor
      · intro c hc hb huniq
        have hfind : (c0 :: rest).find? (fun ch => ch.state.board == s'.board)
            = some c := by
          refine find?_eq_some_of_unique _ _ c (by simpa [hch] using hc)
            (by simpa using hb) ?_
          intro x hx hpx
          exact huniq x (by simpa [hch] using hx) (by simpa using hpx)
        rw [hadv, hfind]
        exact ⟨rfl, rfl, rfl, rfl⟩
      · intro hnone
        have hfind : (c0 :: rest).find? (fun ch => ch.state.board == s'.board)
            = none := by
          rw [List.find?_eq_none]
          intro x hx
          simp only [beq_eq_false_iff_ne, ne_eq, beq_iff_eq]
          exact hnone x (by simpa [hch] using hx)
        rw [hadv, hfind]
        exact ⟨rfl, rfl, rfl⟩

/-- The state reached by the move actually played, for the C8 witness. -/
def advTarget : State :=
  { board := [[1, 1, 1], [0, 2, 0], [0, 0, 2]], turn := Turn.o }

/-- The matching child for the C8 witness: the resulting board with
accumulated statistics. -/
def advChild : Node :=
  ⟨advTarget, 2, 1, none⟩

/-- A root with two children of distinct boards for the C8 witness. -/
def advTree : Node :=
  ⟨scenarioState, 3, 2,
    some [advChild, ⟨{ board := [[1, 1, 0], [2, 2, 0], [0, 0, 2]], turn := Turn.o }, 1, 0, none⟩]⟩

/-- Witness for C8: advancing `advTree` to `advTarget` hands back the
matching child with its statistics (2 simulations) intact. -/
theorem advance_preserves_statistics_witness :
    (advChild ∈ advTree.children.getD [] ∧ advChild.state.board = advTarget.board) ∧
    advance advTree advTarget = advChild ∧
    (advance advTree advTarget).simulations = advChild.simulations ∧
    (advance advTree advTarget).wins = advChild.wins ∧
    (advance advTree advTarget).children = advChild.children := by
  have huniq : ∀ c' ∈ advTree.children.getD [], c'.state.board = advTarget.board →
      c' = advChild := by
    intro c' hc' hb
    rcases List.mem_cons.1 hc' with rfl | h2
    · rfl
    · rcases List.mem_cons.1 h2 with rfl | h3
      · exact absurd hb (by decide)
      · exact absurd h3 (List.not_mem_nil c')
  have h := (advance_preserves_statistics advTree advTarget).1 advChild
    (List.mem_cons_self _ _) rfl huniq
  exact ⟨⟨List.mem_cons_self _ _, rfl⟩, h⟩

end MctsTTT
